import Mathlib

/-!
# Key storage and refresh of the JWKS race-condition demonstration

Shallow embedding of `vulnerable_version.go` (type `VulnerableStorage` with
`KeyWrite`, `KeyRead`, `KeyDelete`, `KeyReadAll`, `VulnerableRefresh`,
`FixedRefresh`) and of the helper `itoa`.

Modelling conventions.

* The Go map `keys map[string]interface{}` is a list of `(kid, key)` pairs
  without repeated kid.  The order of the list stands for the (unspecified)
  iteration order of the Go map: `KeyReadAll` returns the kids in that order,
  and every statement below is quantified over all stores, hence over all
  iteration orders of the initial map.
* Every method of the storage takes the mutex for its whole body, so one call
  is one atomic step.  A refresh is the sequence of the `KeyWrite` and
  `KeyDelete` calls it performs; the store states between two calls are the
  states a concurrent reader can observe.
* `json.Unmarshal` is an external collaborator: it is a parameter `unmarshal`
  returning either an error or the decoded list of key records.
* `time.Sleep` and the unused `ctx` have no effect on the store and are left
  out.
-/

namespace JwksetPoc

/-! ## Data model -/

/-- One element of the `keys` array of the anonymous struct decoded by both
refresh functions. -/
structure JWK where
  Kid : String
  Kty : String
  K : String
deriving DecidableEq, Repr

/-- The assignment `m[kid] = key` on the pair list: an existing entry is
overwritten in place, a new one is added at the end. -/
def writeEntry {α : Type} (kid : String) (key : α) : List (String × α) → List (String × α)
  | [] => [(kid, key)]
  | p :: rest => if p.1 = kid then (kid, key) :: rest else p :: writeEntry kid key rest

/-- The lookup `m[kid]` on the pair list, `none` standing for `exists = false`. -/
def readEntry {α : Type} (kid : String) : List (String × α) → Option α
  | [] => none
  | p :: rest => if p.1 = kid then some p.2 else readEntry kid rest

/-- The builtin `delete(m, kid)` on the pair list. -/
def deleteEntry {α : Type} (kid : String) (l : List (String × α)) : List (String × α) :=
  l.filter (fun p => decide (p.1 ≠ kid))

theorem writeEntry_keys {α : Type} (kid : String) (key : α) (l : List (String × α)) :
    (writeEntry kid key l).map Prod.fst =
      if kid ∈ l.map Prod.fst then l.map Prod.fst else l.map Prod.fst ++ [kid] := by
  induction l with
  | nil => simp [writeEntry]
  | cons p rest ih =>
    by_cases h : p.1 = kid
    · simp [writeEntry, h]
    · have h2 : ¬ kid = p.1 := fun e => h e.symm
      by_cases hm : kid ∈ rest.map Prod.fst
      · rw [if_pos hm] at ih
        simp only [writeEntry, h, if_false, List.map_cons, ih, List.mem_cons, hm, or_true,
          if_true]
      · rw [if_neg hm] at ih
        simp only [writeEntry, h, if_false, List.map_cons, ih, List.mem_cons, hm, h2, or_self,
          List.cons_append]

theorem writeEntry_nodup {α : Type} (kid : String) (key : α) (l : List (String × α))
    (h : (l.map Prod.fst).Nodup) : ((writeEntry kid key l).map Prod.fst).Nodup := by
  rw [writeEntry_keys]
  split
  · exact h
  · rename_i hm
    rw [List.nodup_append]
    refine ⟨h, List.nodup_singleton _, ?_⟩
    intro a ha hb
    simp only [List.mem_singleton] at hb
    subst hb
    exact hm ha

theorem deleteEntry_keys {α : Type} (kid : String) (l : List (String × α)) :
    (deleteEntry kid l).map Prod.fst = (l.map Prod.fst).filter (fun k => decide (k ≠ kid)) := by
  induction l with
  | nil => rfl
  | cons p rest ih =>
    by_cases h : p.1 = kid
    · simp [deleteEntry, h] at ih ⊢
      exact ih
    · simp [deleteEntry, h] at ih ⊢
      exact ih

theorem deleteEntry_nodup {α : Type} (kid : String) (l : List (String × α))
    (h : (l.map Prod.fst).Nodup) : ((deleteEntry kid l).map Prod.fst).Nodup := by
  rw [deleteEntry_keys]
  exact h.filter _

/-- The type `VulnerableStorage`: the map `keys`.  The mutex `mux` makes every
method one atomic step and carries no data. -/
structure VulnerableStorage (α : Type) where
  keys : List (String × α)
  nodup : (keys.map Prod.fst).Nodup

/-- The constructor `NewVulnerableStorage`: an empty map. -/
def NewVulnerableStorage {α : Type} : VulnerableStorage α :=
  ⟨[], List.nodup_nil⟩

namespace VulnerableStorage

/-- Method `KeyWrite`: `s.keys[kid] = key`. -/
def KeyWrite {α : Type} (s : VulnerableStorage α) (kid : String) (key : α) :
    VulnerableStorage α :=
  ⟨writeEntry kid key s.keys, writeEntry_nodup kid key s.keys s.nodup⟩

/-- Method `KeyRead`: `key, exists := s.keys[kid]`; `none` is `exists = false`. -/
def KeyRead {α : Type} (s : VulnerableStorage α) (kid : String) : Option α :=
  readEntry kid s.keys

/-- Method `KeyDelete`: `delete(s.keys, kid)`. -/
def KeyDelete {α : Type} (s : VulnerableStorage α) (kid : String) : VulnerableStorage α :=
  ⟨deleteEntry kid s.keys, deleteEntry_nodup kid s.keys s.nodup⟩

/-- Method `KeyReadAll`: the kids collected by ranging over the map. -/
def KeyReadAll {α : Type} (s : VulnerableStorage α) : List String :=
  s.keys.map Prod.fst

end VulnerableStorage

/-! ## The two refresh functions -/

/-- The states after each step of a loop, the starting state excluded. -/
def statesAfter {σ ι : Type} (step : σ → ι → σ) : σ → List ι → List σ
  | _, [] => []
  | s, x :: xs => step s x :: statesAfter step (step s x) xs

/-- The body of the write loop of `VulnerableRefresh`: one `KeyWrite` and the
entry `newKids[key.Kid] = true`.  The set `newKids` is the list of its kids. -/
def vulnerableWriteStep (st : VulnerableStorage String × List String) (key : JWK) :
    VulnerableStorage String × List String :=
  (st.1.KeyWrite key.Kid key.K, key.Kid :: st.2)

/-- The kids for which the delete loop of `VulnerableRefresh` calls `KeyDelete`:
those with `!newKids[kid]`. -/
def staleKids (existingKids newKids : List String) : List String :=
  existingKids.filter (fun kid => !(decide (kid ∈ newKids)))

/-- The body of the delete loop of `VulnerableRefresh`. -/
def vulnerableDeleteStep (newKids : List String) (s : VulnerableStorage String)
    (kid : String) : VulnerableStorage String :=
  if !(decide (kid ∈ newKids)) then s.KeyDelete kid else s

/-- The function `VulnerableRefresh`: the returned error (`none` is `nil`) and
the store it leaves. -/
def VulnerableRefresh {ε : Type} (unmarshal : List UInt8 → Except ε (List JWK))
    (jwksData : List UInt8) (s : VulnerableStorage String) :
    Option ε × VulnerableStorage String :=
  match unmarshal jwksData with
  | .error err => (some err, s)
  | .ok jwks =>
    let existingKids := s.KeyReadAll
    let written := jwks.foldl vulnerableWriteStep (s, [])
    (none, existingKids.foldl (vulnerableDeleteStep written.2) written.1)

/-- The function `FixedRefresh`: the returned error (`none` is `nil`) and the
store it leaves. -/
def FixedRefresh {ε : Type} (unmarshal : List UInt8 → Except ε (List JWK))
    (jwksData : List UInt8) (s : VulnerableStorage String) :
    Option ε × VulnerableStorage String :=
  match unmarshal jwksData with
  | .error err => (some err, s)
  | .ok jwks =>
    let existingKids := s.KeyReadAll
    let cleared := existingKids.foldl (fun st kid => st.KeyDelete kid) s
    (none, jwks.foldl (fun st key => st.KeyWrite key.Kid key.K) cleared)

/-- The store after the write loop of `VulnerableRefresh` and before its delete
loop. -/
def vulnerableAfterWrites (jwks : List JWK) (s : VulnerableStorage String) :
    VulnerableStorage String :=
  (jwks.foldl vulnerableWriteStep (s, [])).1

/-- The store states produced by `VulnerableRefresh`, one after each `KeyWrite`
and each `KeyDelete` call, in order.  A failed parse makes no call. -/
def VulnerableRefreshStates {ε : Type} (unmarshal : List UInt8 → Except ε (List JWK))
    (jwksData : List UInt8) (s : VulnerableStorage String) :
    List (VulnerableStorage String) :=
  match unmarshal jwksData with
  | .error _ => []
  | .ok jwks =>
    let existingKids := s.KeyReadAll
    let written := jwks.foldl vulnerableWriteStep (s, [])
    (statesAfter vulnerableWriteStep (s, []) jwks).map Prod.fst ++
      statesAfter (fun st kid => st.KeyDelete kid) written.1 (staleKids existingKids written.2)

/-- The store states produced by `FixedRefresh`, one after each `KeyDelete` and
each `KeyWrite` call, in order.  A failed parse makes no call. -/
def FixedRefreshStates {ε : Type} (unmarshal : List UInt8 → Except ε (List JWK))
    (jwksData : List UInt8) (s : VulnerableStorage String) :
    List (VulnerableStorage String) :=
  match unmarshal jwksData with
  | .error _ => []
  | .ok jwks =>
    let existingKids := s.KeyReadAll
    let cleared := existingKids.foldl (fun st kid => st.KeyDelete kid) s
    statesAfter (fun st kid => st.KeyDelete kid) s existingKids ++
      statesAfter (fun st key => st.KeyWrite key.Kid key.K) cleared jwks

/-! ## The helper `itoa` -/

/-- The loop of `itoa`: `fuel` is the number of free bytes left in `buf`
(`pos`), `acc` the bytes `buf[pos:]`.  Writing below index 0 is the run-time
panic `none`. -/
def itoaLoop : Nat → Int → List Char → Option (List Char)
  | 0, i, acc => if i > 0 then none else some acc
  | fuel + 1, i, acc =>
    if i > 0 then itoaLoop fuel (i / 10) (Char.ofNat (48 + (i % 10).toNat) :: acc)
    else some acc

/-- The function `itoa`, with its 32-byte buffer. -/
def itoa (i : Int) : Option String :=
  if i = 0 then some "0" else (itoaLoop 32 i []).map String.mk

/-- The kid `"new-" + itoa(i)` built by the tests. -/
def newKid (i : Nat) : String :=
  "new-" ++ (itoa (Int.ofNat i)).getD ""

/-- The record that `makeJWKS` writes for one kid, as decoded. -/
def octKey (kid : String) : JWK :=
  ⟨kid, "oct", "QUFBQQ"⟩

/-- The material a document gives for a kid: the `K` of the last record with
that kid in document order, `none` when no record has it. -/
def lastMaterial : List JWK → String → Option String
  | [], _ => none
  | key :: rest, kid =>
    match lastMaterial rest kid with
    | some v => some v
    | none => if key.Kid = kid then some key.K else none

/-! ## Concrete stores and documents of the tests -/

/-- A decoder that accepts every input as the given key list. -/
def parsedAs (jwks : List JWK) : List UInt8 → Except String (List JWK) :=
  fun _ => .ok jwks

/-- A decoder that rejects every input with the given error. -/
def rejectedWith (err : String) : List UInt8 → Except String (List JWK) :=
  fun _ => .error err

/-- The store holding the given kids, each with the material of `makeJWKS`. -/
def storeOf (kids : List String) : VulnerableStorage String :=
  kids.foldl (fun st kid => st.KeyWrite kid "QUFBQQ") NewVulnerableStorage

/-- The document `new-0 .. new-(n-1)` of the tests. -/
def newDocument (n : Nat) : List JWK :=
  (List.range n).map (fun i => octKey (newKid i))

/-! ## The helper `makeJWKS` -/

/-- The loop of `makeJWKS` in `vulnerable_version.go`: `i` is the loop index,
`b` the content of the string builder. -/
def makeJWKSLoop : Nat → List String → String → String
  | _, [], b => b
  | i, kid :: rest, b =>
    makeJWKSLoop (i + 1) rest
      ((((if i > 0 then b ++ "," else b) ++
        "\x7b\"kty\":\"oct\",\"k\":\"QUFBQQ\",\"kid\":\"") ++ kid) ++ "\"\x7d")

/-- The function `makeJWKS` of `vulnerable_version.go`. -/
def makeJWKS (kids : List String) : String :=
  makeJWKSLoop 0 kids "\x7b\"keys\":[" ++ "]\x7d"

namespace MainGo

/-- The loop of `makeJWKS` in `main.go`: `i` is the loop index, `b` the content
of the string builder. -/
def makeJWKSLoop : Nat → List String → String → String
  | _, [], b => b
  | i, kid :: rest, b =>
    makeJWKSLoop (i + 1) rest
      ((((if i > 0 then b ++ "," else b) ++
        "\x7b\"kty\":\"oct\",\"k\":\"QUFBQQ\",\"kid\":\"") ++ kid) ++ "\"\x7d")

/-- The function `makeJWKS` of `main.go`. -/
def makeJWKS (kids : List String) : String :=
  makeJWKSLoop 0 kids "\x7b\"keys\":[" ++ "]\x7d"

end MainGo

/-! ## Reference definitions for the helpers -/

/-- The JSON entry for one kid, as the description of `makeJWKS` words it. -/
def jwksEntry (kid : String) : String :=
  "\x7b\"kty\":\"oct\",\"k\":\"QUFBQQ\",\"kid\":\"" ++ kid ++ "\"\x7d"

/-- The document described for `makeJWKS`: the opening text, the entries in
input order joined by single commas, the closing text. -/
def jwksDocument (kids : List String) : String :=
  "\x7b\"keys\":[" ++ String.intercalate "," (kids.map jwksEntry) ++ "]\x7d"

/-- The value of a list of characters read as a base-10 numeral. -/
def decimalValue (digits : List Char) : Nat :=
  digits.foldl (fun acc c => 10 * acc + (c.toNat - 48)) 0

/-! ## Reads after one write or delete -/

theorem readEntry_writeEntry {α : Type} (kid : String) (key : α) (k : String)
    (l : List (String × α)) :
    readEntry k (writeEntry kid key l) = if k = kid then some key else readEntry k l := by
  induction l with
  | nil =>
    by_cases h : k = kid
    · simp [writeEntry, readEntry, h]
    · have h2 : ¬ kid = k := fun e => h e.symm
      simp [writeEntry, readEntry, h, h2]
  | cons p rest ih =>
    by_cases hp : p.1 = kid
    · by_cases h : k = kid
      · simp [writeEntry, readEntry, hp, h]
      · have h2 : ¬ kid = k := fun e => h e.symm
        simp [writeEntry, readEntry, hp, h, h2]
    · by_cases h : k = kid
      · subst h
        simp [writeEntry, readEntry, hp, ih]
      · simp [writeEntry, readEntry, hp, h, ih]

theorem readEntry_deleteEntry {α : Type} (kid k : String) (l : List (String × α)) :
    readEntry k (deleteEntry kid l) = if k = kid then none else readEntry k l := by
  induction l with
  | nil => simp [deleteEntry, readEntry]
  | cons p rest ih =>
    unfold deleteEntry at ih ⊢
    by_cases hp : p.1 = kid
    · by_cases h : k = kid
      · simp [List.filter_cons, hp, h] at ih ⊢
        exact ih
      · have h2 : ¬ kid = k := fun e => h e.symm
        simp [List.filter_cons, hp, h, h2, readEntry] at ih ⊢
        exact ih
    · by_cases h : k = kid
      · subst h
        simp [List.filter_cons, hp, readEntry] at ih ⊢
        exact ih
      · simp [List.filter_cons, hp, h, readEntry] at ih ⊢
        rw [ih]

theorem readEntry_eq_none_iff {α : Type} (k : String) (l : List (String × α)) :
    readEntry k l = none ↔ k ∉ l.map Prod.fst := by
  induction l with
  | nil => simp [readEntry]
  | cons p rest ih =>
    by_cases hp : p.1 = k
    · simp [readEntry, hp]
    · have h2 : ¬ k = p.1 := fun e => hp e.symm
      simp [readEntry, hp, h2, ih]

namespace VulnerableStorage

theorem KeyRead_KeyWrite {α : Type} (s : VulnerableStorage α) (kid : String) (key : α)
    (k : String) :
    (s.KeyWrite kid key).KeyRead k = if k = kid then some key else s.KeyRead k :=
  readEntry_writeEntry kid key k s.keys

theorem KeyRead_KeyDelete {α : Type} (s : VulnerableStorage α) (kid k : String) :
    (s.KeyDelete kid).KeyRead k = if k = kid then none else s.KeyRead k :=
  readEntry_deleteEntry kid k s.keys

theorem KeyRead_eq_none_iff {α : Type} (s : VulnerableStorage α) (k : String) :
    s.KeyRead k = none ↔ k ∉ s.KeyReadAll :=
  readEntry_eq_none_iff k s.keys

theorem mem_KeyReadAll_iff {α : Type} (s : VulnerableStorage α) (k : String) :
    k ∈ s.KeyReadAll ↔ (s.KeyRead k).isSome = true := by
  have h := KeyRead_eq_none_iff s k
  cases hr : s.KeyRead k with
  | none => simpa [hr] using h
  | some v => simpa [hr] using h

theorem KeyRead_NewVulnerableStorage {α : Type} (k : String) :
    (NewVulnerableStorage : VulnerableStorage α).KeyRead k = none := rfl

end VulnerableStorage

/-! ## Reads after a loop of writes or deletes -/

theorem KeyRead_foldl_KeyDelete (kids : List String) (s : VulnerableStorage String)
    (k : String) :
    (kids.foldl (fun st kid => st.KeyDelete kid) s).KeyRead k =
      if k ∈ kids then none else s.KeyRead k := by
  induction kids generalizing s with
  | nil => simp
  | cons kid rest ih =>
    rw [List.foldl_cons, ih, VulnerableStorage.KeyRead_KeyDelete]
    by_cases h : k = kid
    · simp [h]
    · simp [h]

theorem KeyRead_foldl_KeyWrite (jwks : List JWK) (s : VulnerableStorage String)
    (k : String) :
    (jwks.foldl (fun st key => st.KeyWrite key.Kid key.K) s).KeyRead k =
      match lastMaterial jwks k with
      | some v => some v
      | none => s.KeyRead k := by
  induction jwks generalizing s with
  | nil => simp [lastMaterial]
  | cons key rest ih =>
    rw [List.foldl_cons, ih, VulnerableStorage.KeyRead_KeyWrite]
    cases hl : lastMaterial rest k with
    | some v => simp [lastMaterial, hl]
    | none =>
      by_cases h : key.Kid = k
      · simp [lastMaterial, hl, h]
      · have h2 : ¬ k = key.Kid := fun e => h e.symm
        simp [lastMaterial, hl, h, h2]

theorem lastMaterial_eq_none_iff (jwks : List JWK) (k : String) :
    lastMaterial jwks k = none ↔ k ∉ jwks.map JWK.Kid := by
  induction jwks with
  | nil => simp [lastMaterial]
  | cons key rest ih =>
    cases hl : lastMaterial rest k with
    | some v =>
      have : k ∈ rest.map JWK.Kid := by
        by_contra hc
        rw [ih.mpr hc] at hl
        cases hl
      simp only [lastMaterial, hl, List.map_cons, List.mem_cons]
      simp [this]
    | none =>
      have hn := ih.mp hl
      by_cases h : key.Kid = k
      · simp [lastMaterial, hl, h]
      · have h2 : ¬ k = key.Kid := fun e => h e.symm
        simp only [lastMaterial, hl, h, List.map_cons, List.mem_cons, h2, hn]
        simp

theorem lastMaterial_mem (jwks : List JWK) (k v : String) (h : lastMaterial jwks k = some v) :
    ∃ key ∈ jwks, key.Kid = k ∧ key.K = v := by
  induction jwks with
  | nil => simp [lastMaterial] at h
  | cons key rest ih =>
    cases hl : lastMaterial rest k with
    | some w =>
      simp only [lastMaterial, hl, Option.some.injEq] at h
      subst h
      obtain ⟨key2, hm, hk⟩ := ih hl
      exact ⟨key2, List.mem_cons_of_mem _ hm, hk⟩
    | none =>
      by_cases hk : key.Kid = k
      · simp only [lastMaterial, hl, hk, if_true, Option.some.injEq] at h
        exact ⟨key, List.mem_cons_self _ _, hk, h⟩
      · simp [lastMaterial, hl, hk] at h

theorem mem_statesAfter {σ ι : Type} (step : σ → ι → σ) (xs : List ι) (s st : σ) :
    st ∈ statesAfter step s xs ↔
      ∃ pre suf, xs = pre ++ suf ∧ pre ≠ [] ∧ st = pre.foldl step s := by
  induction xs generalizing s with
  | nil =>
    simp only [statesAfter, List.not_mem_nil, false_iff]
    rintro ⟨pre, suf, h1, h2, _⟩
    cases pre with
    | nil => exact h2 rfl
    | cons a t => cases h1
  | cons x rest ih =>
    simp only [statesAfter, List.mem_cons, ih]
    constructor
    · rintro (h | ⟨pre, suf, h1, _, h3⟩)
      · exact ⟨[x], rest, rfl, by simp, by simpa using h⟩
      · exact ⟨x :: pre, suf, by simp [h1], by simp, by simpa using h3⟩
    · rintro ⟨pre, suf, h1, h2, h3⟩
      cases pre with
      | nil => exact absurd rfl h2
      | cons a t =>
        simp only [List.cons_append, List.cons.injEq] at h1
        obtain ⟨rfl, h1⟩ := h1
        cases t with
        | nil => left; simpa using h3
        | cons b u =>
          right
          exact ⟨b :: u, suf, h1, by simp, by simpa using h3⟩

theorem foldl_vulnerableWriteStep_fst (jwks : List JWK) (s : VulnerableStorage String)
    (nk : List String) :
    (jwks.foldl vulnerableWriteStep (s, nk)).1 =
      jwks.foldl (fun st key => st.KeyWrite key.Kid key.K) s := by
  induction jwks generalizing s nk with
  | nil => rfl
  | cons key rest ih => simp only [List.foldl_cons, vulnerableWriteStep, ih]

theorem mem_foldl_vulnerableWriteStep_snd (jwks : List JWK) (s : VulnerableStorage String)
    (nk : List String) (k : String) :
    k ∈ (jwks.foldl vulnerableWriteStep (s, nk)).2 ↔ k ∈ nk ∨ k ∈ jwks.map JWK.Kid := by
  induction jwks generalizing s nk with
  | nil => simp
  | cons key rest ih =>
    simp only [List.foldl_cons, vulnerableWriteStep, ih, List.mem_cons, List.map_cons]
    tauto

theorem foldl_vulnerableDeleteStep (nk kids : List String) (s : VulnerableStorage String) :
    kids.foldl (vulnerableDeleteStep nk) s =
      (staleKids kids nk).foldl (fun st kid => st.KeyDelete kid) s := by
  induction kids generalizing s with
  | nil => rfl
  | cons kid rest ih =>
    by_cases h : kid ∈ nk
    · simp [staleKids, vulnerableDeleteStep, h, List.filter_cons] at ih ⊢
      exact ih s
    · simp [staleKids, vulnerableDeleteStep, h, List.filter_cons] at ih ⊢
      exact ih _

theorem map_fst_statesAfter_vulnerableWriteStep (jwks : List JWK)
    (s : VulnerableStorage String) (nk : List String) :
    (statesAfter vulnerableWriteStep (s, nk) jwks).map Prod.fst =
      statesAfter (fun st key => st.KeyWrite key.Kid key.K) s jwks := by
  induction jwks generalizing s nk with
  | nil => rfl
  | cons key rest ih => simp only [statesAfter, List.map_cons, vulnerableWriteStep, ih]

theorem length_statesAfter {σ ι : Type} (step : σ → ι → σ) (xs : List ι) (s : σ) :
    (statesAfter step s xs).length = xs.length := by
  induction xs generalizing s with
  | nil => rfl
  | cons x rest ih => simp [statesAfter, ih]

theorem getElem?_cons_statesAfter {σ ι : Type} (step : σ → ι → σ) (xs : List ι) (s : σ)
    (i : Nat) (hi : i ≤ xs.length) :
    (s :: statesAfter step s xs)[i]? = some ((xs.take i).foldl step s) := by
  induction xs generalizing s i with
  | nil =>
    have : i = 0 := by simpa using hi
    subst this
    rfl
  | cons x rest ih =>
    cases i with
    | zero => rfl
    | succ j =>
      have hj : j ≤ rest.length := by simpa using hi
      simpa [statesAfter] using ih (step s x) j hj

/-- The store left by the delete loop of `FixedRefresh` holds no key. -/
theorem KeyRead_cleared (s : VulnerableStorage String) (k : String) :
    (s.KeyReadAll.foldl (fun st kid => st.KeyDelete kid) s).KeyRead k = none := by
  rw [KeyRead_foldl_KeyDelete]
  split
  · rfl
  · rename_i h
    exact (VulnerableStorage.KeyRead_eq_none_iff s k).mpr h

theorem FixedRefreshStates_ok {ε : Type} (unmarshal : List UInt8 → Except ε (List JWK))
    (jwksData : List UInt8) (s : VulnerableStorage String) (jwks : List JWK)
    (hparse : unmarshal jwksData = .ok jwks) :
    FixedRefreshStates unmarshal jwksData s =
      statesAfter (fun st kid => st.KeyDelete kid) s s.KeyReadAll ++
        statesAfter (fun st key => st.KeyWrite key.Kid key.K)
          (s.KeyReadAll.foldl (fun st kid => st.KeyDelete kid) s) jwks := by
  simp only [FixedRefreshStates, hparse]

theorem FixedRefresh_ok {ε : Type} (unmarshal : List UInt8 → Except ε (List JWK))
    (jwksData : List UInt8) (s : VulnerableStorage String) (jwks : List JWK)
    (hparse : unmarshal jwksData = .ok jwks) :
    FixedRefresh unmarshal jwksData s =
      (none, jwks.foldl (fun st key => st.KeyWrite key.Kid key.K)
        (s.KeyReadAll.foldl (fun st kid => st.KeyDelete kid) s)) := by
  simp only [FixedRefresh, hparse]

theorem VulnerableRefreshStates_ok {ε : Type} (unmarshal : List UInt8 → Except ε (List JWK))
    (jwksData : List UInt8) (s : VulnerableStorage String) (jwks : List JWK)
    (hparse : unmarshal jwksData = .ok jwks) :
    VulnerableRefreshStates unmarshal jwksData s =
      statesAfter (fun st key => st.KeyWrite key.Kid key.K) s jwks ++
        statesAfter (fun st kid => st.KeyDelete kid) (vulnerableAfterWrites jwks s)
          (staleKids s.KeyReadAll (jwks.foldl vulnerableWriteStep (s, [])).2) := by
  simp only [VulnerableRefreshStates, hparse, map_fst_statesAfter_vulnerableWriteStep,
    vulnerableAfterWrites]

theorem VulnerableRefresh_ok {ε : Type} (unmarshal : List UInt8 → Except ε (List JWK))
    (jwksData : List UInt8) (s : VulnerableStorage String) (jwks : List JWK)
    (hparse : unmarshal jwksData = .ok jwks) :
    VulnerableRefresh unmarshal jwksData s =
      (none, (staleKids s.KeyReadAll (jwks.foldl vulnerableWriteStep (s, [])).2).foldl
        (fun st kid => st.KeyDelete kid) (vulnerableAfterWrites jwks s)) := by
  simp only [VulnerableRefresh, hparse, foldl_vulnerableDeleteStep, vulnerableAfterWrites]

theorem mem_staleKids (existingKids : List String) (jwks : List JWK)
    (s : VulnerableStorage String) (k : String) :
    k ∈ staleKids existingKids (jwks.foldl vulnerableWriteStep (s, [])).2 ↔
      k ∈ existingKids ∧ k ∉ jwks.map JWK.Kid := by
  simp only [staleKids, List.mem_filter, Bool.not_eq_true', decide_eq_false_iff_not,
    mem_foldl_vulnerableWriteStep_snd, List.not_mem_nil, false_or]

theorem KeyRead_vulnerableAfterWrites (jwks : List JWK) (s : VulnerableStorage String)
    (k : String) :
    (vulnerableAfterWrites jwks s).KeyRead k =
      match lastMaterial jwks k with
      | some v => some v
      | none => s.KeyRead k := by
  rw [vulnerableAfterWrites, foldl_vulnerableWriteStep_fst, KeyRead_foldl_KeyWrite]

theorem getElem_mem_take_iff (l : List String) (hnd : l.Nodup) (i j : Nat)
    (hj : j < l.length) : l[j] ∈ l.take i ↔ j < i := by
  induction l generalizing i j with
  | nil => simp at hj
  | cons a t ih =>
    cases i with
    | zero => simp
    | succ i =>
      cases j with
      | zero => simp
      | succ j =>
        have hj2 : j < t.length := by simpa using hj
        have hne : t[j] ≠ a := by
          intro hc
          have hmem : a ∈ t := hc ▸ List.getElem_mem hj2
          exact (List.nodup_cons.mp hnd).1 hmem
        simp only [List.getElem_cons_succ, List.take_succ_cons, List.mem_cons, hne, false_or,
          ih (List.nodup_cons.mp hnd).2 i j hj2, Nat.succ_lt_succ_iff]

/-- The store left by a `FixedRefresh` whose document decodes reads, for every
kid, the material the document gives for it. -/
theorem KeyRead_FixedRefresh {ε : Type} (unmarshal : List UInt8 → Except ε (List JWK))
    (jwksData : List UInt8) (s : VulnerableStorage String) (jwks : List JWK)
    (hparse : unmarshal jwksData = .ok jwks) (k : String) :
    (FixedRefresh unmarshal jwksData s).2.KeyRead k = lastMaterial jwks k := by
  rw [FixedRefresh_ok unmarshal jwksData s jwks hparse]
  simp only [KeyRead_foldl_KeyWrite, KeyRead_cleared]
  cases lastMaterial jwks k <;> rfl

/-- The store left by a `VulnerableRefresh` whose document decodes reads, for
every kid, the material the document gives for it. -/
theorem KeyRead_VulnerableRefresh {ε : Type} (unmarshal : List UInt8 → Except ε (List JWK))
    (jwksData : List UInt8) (s : VulnerableStorage String) (jwks : List JWK)
    (hparse : unmarshal jwksData = .ok jwks) (k : String) :
    (VulnerableRefresh unmarshal jwksData s).2.KeyRead k = lastMaterial jwks k := by
  rw [VulnerableRefresh_ok unmarshal jwksData s jwks hparse]
  simp only [KeyRead_foldl_KeyDelete, mem_staleKids, KeyRead_vulnerableAfterWrites]
  cases hl : lastMaterial jwks k with
  | some v =>
    have hin : k ∈ jwks.map JWK.Kid := by
      by_contra hc
      rw [(lastMaterial_eq_none_iff jwks k).mpr hc] at hl
      cases hl
    simp [hin]
  | none =>
    have hout := (lastMaterial_eq_none_iff jwks k).mp hl
    by_cases hk : k ∈ s.KeyReadAll
    · simp [hk, hout]
    · simp [hk, (VulnerableStorage.KeyRead_eq_none_iff s k).mpr hk]

theorem lastMaterial_isSome_iff (jwks : List JWK) (k : String) :
    (lastMaterial jwks k).isSome = true ↔ k ∈ jwks.map JWK.Kid := by
  have h := lastMaterial_eq_none_iff jwks k
  cases hl : lastMaterial jwks k with
  | none =>
    rw [hl] at h
    simpa using h
  | some v =>
    rw [hl] at h
    simpa using h

theorem lastMaterial_append_last (pre suf : List JWK) (key : JWK)
    (hlast : ∀ k ∈ suf, k.Kid ≠ key.Kid) :
    lastMaterial (pre ++ key :: suf) key.Kid = some key.K := by
  have hsuf : lastMaterial suf key.Kid = none := by
    apply (lastMaterial_eq_none_iff suf key.Kid).mpr
    intro hc
    obtain ⟨k, hk, hkid⟩ := List.mem_map.mp hc
    exact hlast k hk hkid
  induction pre with
  | nil => simp [lastMaterial, hsuf]
  | cons p rest ih => simp [lastMaterial, ih]

theorem deleteEntry_eq_self {α : Type} (kid : String) (l : List (String × α))
    (h : kid ∉ l.map Prod.fst) : deleteEntry kid l = l := by
  unfold deleteEntry
  apply List.filter_eq_self.mpr
  intro p hp
  have : p.1 ≠ kid := by
    intro hc
    apply h
    rw [← hc]
    exact List.mem_map_of_mem Prod.fst hp
  simpa using this

theorem deleteEntry_not_mem {α : Type} (kid : String) (l : List (String × α)) :
    kid ∉ (deleteEntry kid l).map Prod.fst := by
  rw [deleteEntry_keys]
  simp

/-! ## Digits written by `itoa` -/

theorem toNat_digit (d : Nat) (hd : d < 10) : (Char.ofNat (48 + d)).toNat = 48 + d := by
  interval_cases d <;> rfl

theorem isDigit_digit (d : Nat) (hd : d < 10) : (Char.ofNat (48 + d)).isDigit = true := by
  interval_cases d <;> rfl

theorem digit_ne_zero (d : Nat) (hd : d < 10) (hpos : 0 < d) : Char.ofNat (48 + d) ≠ '0' := by
  interval_cases d <;> decide

theorem decimalValue_append_singleton (ds : List Char) (c : Char) :
    decimalValue (ds ++ [c]) = 10 * decimalValue ds + (c.toNat - 48) := by
  simp [decimalValue, List.foldl_append]

/-- The loop of `itoa` on a number of at most `fuel` digits puts before `acc` a
list of digits that has no leading zero and reads back as the number. -/
theorem itoaLoop_digits (fuel : Nat) (n : Nat) (acc : List Char) (h : n < 10 ^ fuel) :
    ∃ ds, itoaLoop fuel (n : Int) acc = some (ds ++ acc) ∧
      (∀ c ∈ ds, c.isDigit = true) ∧ decimalValue ds = n ∧
      (0 < n → ds ≠ [] ∧ ds.head? ≠ some '0') ∧ (n = 0 → ds = []) := by
  induction fuel generalizing n acc with
  | zero =>
    have hn : n = 0 := by simpa using h
    subst hn
    exact ⟨[], by simp [itoaLoop], by simp, rfl, by simp, by simp⟩
  | succ fuel ih =>
    by_cases hpos : 0 < n
    · have hdiv : n / 10 < 10 ^ fuel := by
        rw [Nat.div_lt_iff_lt_mul (by norm_num)]
        rw [pow_succ] at h
        exact h
      have hmod : n % 10 < 10 := Nat.mod_lt _ (by norm_num)
      obtain ⟨ds, hds, hdig, hval, hlead, hzero⟩ :=
        ih (n / 10) (Char.ofNat (48 + n % 10) :: acc) hdiv
      have hi : (n : Int) > 0 := by exact_mod_cast hpos
      have hq : (n : Int) / 10 = ((n / 10 : Nat) : Int) := by omega
      have hr : ((n : Int) % 10).toNat = n % 10 := by omega
      refine ⟨ds ++ [Char.ofNat (48 + n % 10)], ?_, ?_, ?_, ?_, ?_⟩
      · rw [itoaLoop, if_pos hi, hq, hr, hds]
        simp
      · intro c hc
        rcases List.mem_append.mp hc with hc | hc
        · exact hdig c hc
        · rw [List.mem_singleton.mp hc]
          exact isDigit_digit _ hmod
      · rw [decimalValue_append_singleton, hval, toNat_digit _ hmod]
        omega
      · intro _
        refine ⟨by simp, ?_⟩
        by_cases hq0 : 0 < n / 10
        · obtain ⟨hne, hhead⟩ := hlead hq0
          cases ds with
          | nil => exact absurd rfl hne
          | cons a t => simpa using hhead
        · have hz : n / 10 = 0 := by omega
          rw [hzero hz]
          have hm : 0 < n % 10 := by omega
          simpa using digit_ne_zero _ hmod hm
      · intro hn
        omega
    · have hn : n = 0 := by omega
      subst hn
      exact ⟨[], by simp [itoaLoop], by simp, rfl, by simp, by simp⟩

/-- What `itoa` returns on a non-negative 64-bit `int`. -/
theorem itoa_digits (i : Int) (h0 : 0 ≤ i) (hmax : i < 2 ^ 63) :
    ∃ str, itoa i = some str ∧ str.data ≠ [] ∧
      (∀ c ∈ str.data, c.isDigit = true) ∧
      (i ≠ 0 → str.data.head? ≠ some '0') ∧ (i = 0 → str = "0") ∧
      (decimalValue str.data : Int) = i := by
  obtain ⟨n, rfl⟩ := Int.eq_ofNat_of_zero_le h0
  by_cases hn : n = 0
  · subst hn
    exact ⟨"0", by simp [itoa], by decide, by decide, by simp, by simp, by decide⟩
  · have hlt : n < 10 ^ 32 := by
      have : (n : Int) < 10 ^ 32 := lt_trans hmax (by norm_num)
      exact_mod_cast this
    obtain ⟨ds, hds, hdig, hval, hlead, _⟩ := itoaLoop_digits 32 n [] hlt
    have hpos : 0 < n := Nat.pos_of_ne_zero hn
    have hne : (n : Int) ≠ 0 := by exact_mod_cast hn
    refine ⟨String.mk ds, ?_, (hlead hpos).1, hdig, fun _ => (hlead hpos).2, ?_, ?_⟩
    · rw [itoa, if_neg hne, hds]
      simp
    · intro hc
      exact absurd hc hne
    · simp [hval]

theorem itoa_injective (i j : Int) (hi0 : 0 ≤ i) (hi : i < 2 ^ 63) (hj0 : 0 ≤ j)
    (hj : j < 2 ^ 63) (h : itoa i = itoa j) : i = j := by
  obtain ⟨a, ha, _, _, _, _, hva⟩ := itoa_digits i hi0 hi
  obtain ⟨b, hb, _, _, _, _, hvb⟩ := itoa_digits j hj0 hj
  rw [ha, hb, Option.some.injEq] at h
  rw [← hva, ← hvb, h]

theorem newKid_injective (i j : Nat) (hi : i < 2 ^ 63) (hj : j < 2 ^ 63)
    (h : newKid i = newKid j) : i = j := by
  have hi2 : (Int.ofNat i) < (2 : Int) ^ 63 := by
    have h1 : Int.ofNat i = (i : Int) := rfl
    omega
  have hj2 : (Int.ofNat j) < (2 : Int) ^ 63 := by
    have h1 : Int.ofNat j = (j : Int) := rfl
    omega
  obtain ⟨a, ha, _⟩ := itoa_digits (Int.ofNat i) (Int.ofNat_nonneg i) hi2
  obtain ⟨b, hb, _⟩ := itoa_digits (Int.ofNat j) (Int.ofNat_nonneg j) hj2
  have hab : a = b := by
    simp only [newKid, ha, hb, Option.getD_some] at h
    have hdata := congrArg String.data h
    rw [String.data_append, String.data_append] at hdata
    exact String.ext (List.append_cancel_left hdata)
  have := itoa_injective (Int.ofNat i) (Int.ofNat j) (Int.ofNat_nonneg i) hi2
    (Int.ofNat_nonneg j) hj2 (by rw [ha, hb, hab])
  exact Int.ofNat.inj this

/-! ## The text built by `makeJWKS` -/

theorem intercalate_go_append (b e sep : String) (es : List String) :
    String.intercalate.go (b ++ e) sep es = b ++ String.intercalate.go e sep es := by
  induction es generalizing e with
  | nil => rfl
  | cons a rest ih =>
    simp only [String.intercalate.go]
    rw [String.append_assoc, String.append_assoc, ← String.append_assoc e sep a, ih]

theorem makeJWKSLoop_succ (i : Nat) (kids : List String) (b : String) :
    makeJWKSLoop (i + 1) kids b = String.intercalate.go b "," (kids.map jwksEntry) := by
  induction kids generalizing i b with
  | nil => rfl
  | cons kid rest ih =>
    simp only [makeJWKSLoop, List.map_cons, String.intercalate.go, ih, jwksEntry,
      Nat.succ_pos, if_true, Nat.zero_lt_succ, String.append_assoc]

theorem makeJWKSLoop_zero (kids : List String) (b : String) :
    makeJWKSLoop 0 kids b = b ++ String.intercalate "," (kids.map jwksEntry) := by
  cases kids with
  | nil => simp [makeJWKSLoop, String.intercalate]
  | cons kid rest =>
    simp only [makeJWKSLoop, List.map_cons, String.intercalate, makeJWKSLoop_succ,
      lt_self_iff_false, if_false]
    rw [← intercalate_go_append]
    simp only [jwksEntry, String.append_assoc]

theorem MainGo_makeJWKSLoop_eq (i : Nat) (kids : List String) (b : String) :
    MainGo.makeJWKSLoop i kids b = makeJWKSLoop i kids b := by
  induction kids generalizing i b with
  | nil => rfl
  | cons kid rest ih => simp only [MainGo.makeJWKSLoop, makeJWKSLoop, ih]

/-- The states of the delete loop of `FixedRefresh`.  When the document
decodes, the state after its first `i` `KeyDelete` calls (state 0 is the
initial store, `i` at most the number of stored keys) has the kid at position
`j` of the deletion order
readable with its stored material when its own `KeyDelete` has not yet run
(`i ≤ j`), and not readable when it has (`j < i`). -/
theorem FixedRefresh_delete_loop_states {ε : Type}
    (unmarshal : List UInt8 → Except ε (List JWK)) (jwksData : List UInt8)
    (s : VulnerableStorage String) (jwks : List JWK)
    (hparse : unmarshal jwksData = .ok jwks) (i : Nat) (hi : i ≤ s.KeyReadAll.length) :
    ∃ st, (s :: FixedRefreshStates unmarshal jwksData s)[i]? = some st ∧
      ∀ j, ∀ hj : j < s.KeyReadAll.length,
        (i ≤ j → st.KeyRead (s.KeyReadAll[j]) = s.KeyRead (s.KeyReadAll[j]) ∧
          (st.KeyRead (s.KeyReadAll[j])).isSome = true) ∧
        (j < i → st.KeyRead (s.KeyReadAll[j]) = none) := by
  refine ⟨(s.KeyReadAll.take i).foldl (fun st kid => st.KeyDelete kid) s, ?_, ?_⟩
  · rw [FixedRefreshStates_ok unmarshal jwksData s jwks hparse, ← List.cons_append]
    have hlen : i < (s :: statesAfter (fun st kid => st.KeyDelete kid) s s.KeyReadAll).length := by
      rw [List.length_cons, length_statesAfter]
      omega
    rw [List.getElem?_append_left hlen]
    exact getElem?_cons_statesAfter _ _ _ _ hi
  · intro j hj
    have hiff := getElem_mem_take_iff s.KeyReadAll s.nodup i j hj
    rw [KeyRead_foldl_KeyDelete]
    constructor
    · intro hij
      have hnot : s.KeyReadAll[j] ∉ s.KeyReadAll.take i := fun hc => by
        have := hiff.mp hc
        omega
      rw [if_neg hnot]
      exact ⟨rfl, (VulnerableStorage.mem_KeyReadAll_iff s _).mp (List.getElem_mem hj)⟩
    · intro hji
      rw [if_pos (hiff.mpr hji)]

/-! ## Claims -/

/-- C1. No revocation window in `FixedRefresh`: when the document decodes and
its kids are disjoint from the kids of the initial store, then in the initial
state and in every state produced by a `KeyDelete` or `KeyWrite` call of
`FixedRefresh`, if some kid of the document is readable then no kid of the
initial store is readable. -/
theorem FixedRefresh_no_revocation_window {ε : Type}
    (unmarshal : List UInt8 → Except ε (List JWK)) (jwksData : List UInt8)
    (s : VulnerableStorage String) (jwks : List JWK)
    (hparse : unmarshal jwksData = .ok jwks)
    (hdisj : ∀ key ∈ jwks, key.Kid ∉ s.KeyReadAll) :
    ∀ st ∈ s :: FixedRefreshStates unmarshal jwksData s,
      (∃ key ∈ jwks, (st.KeyRead key.Kid).isSome = true) →
        ∀ kid ∈ s.KeyReadAll, st.KeyRead kid = none := by
  intro st hst hnew kid hkid
  rw [FixedRefreshStates_ok unmarshal jwksData s jwks hparse] at hst
  -- a kid of the document is never readable while only deletes have happened
  have hdel : ∀ pre : List String, ∀ key ∈ jwks,
      ((pre.foldl (fun st kid => st.KeyDelete kid) s).KeyRead key.Kid) = none := by
    intro pre key hkey
    rw [KeyRead_foldl_KeyDelete]
    split
    · rfl
    · exact (VulnerableStorage.KeyRead_eq_none_iff s key.Kid).mpr (hdisj key hkey)
  obtain ⟨key, hkey, hread⟩ := hnew
  have hkid_not : kid ∉ jwks.map JWK.Kid := by
    intro hc
    obtain ⟨key2, hk2, rfl⟩ := List.mem_map.mp hc
    exact hdisj key2 hk2 hkid
  simp only [List.mem_cons, List.mem_append] at hst
  rcases hst with rfl | hst | hst
  · have := hdel [] key hkey
    simp only [List.foldl_nil] at this
    rw [this] at hread
    cases hread
  · obtain ⟨pre, suf, _, _, rfl⟩ := (mem_statesAfter _ _ _ _).mp hst
    rw [hdel pre key hkey] at hread
    cases hread
  · obtain ⟨pre, suf, hsplit, _, rfl⟩ := (mem_statesAfter _ _ _ _).mp hst
    rw [KeyRead_foldl_KeyWrite, KeyRead_cleared]
    have hpre : kid ∉ pre.map JWK.Kid := by
      intro hc
      apply hkid_not
      rw [hsplit, List.map_append, List.mem_append]
      exact Or.inl hc
    rw [(lastMaterial_eq_none_iff pre kid).mpr hpre]

set_option maxRecDepth 100000 in
/-- C1, the test of `testFixed`: initial store `old`, document
`new-0 .. new-99`. -/
theorem FixedRefresh_no_revocation_window_witness :
    (parsedAs (newDocument 100) [] = .ok (newDocument 100) ∧
      ∀ key ∈ newDocument 100, key.Kid ∉ (storeOf ["old"]).KeyReadAll) ∧
    (∀ st ∈ storeOf ["old"] :: FixedRefreshStates (parsedAs (newDocument 100)) []
        (storeOf ["old"]),
      (∃ key ∈ newDocument 100, (st.KeyRead key.Kid).isSome = true) →
        ∀ kid ∈ (storeOf ["old"]).KeyReadAll, st.KeyRead kid = none) :=
  ⟨⟨rfl, by decide⟩,
    FixedRefresh_no_revocation_window (parsedAs (newDocument 100)) [] (storeOf ["old"])
      (newDocument 100) rfl (by decide)⟩

/-- C2. Revocation window in `VulnerableRefresh`: when the document decodes, is
not empty, and a kid `old` of the initial store is absent from it, the store
after the write loop and before the delete loop is the state produced by the
last `KeyWrite` call, and in it every kid of the document is readable while
`old` is still readable with its material; already the state after the first
`KeyWrite` has the first kid of the document and `old` both readable. -/
theorem VulnerableRefresh_revocation_window {ε : Type}
    (unmarshal : List UInt8 → Except ε (List JWK)) (jwksData : List UInt8)
    (s : VulnerableStorage String) (jwks : List JWK) (old : String)
    (hparse : unmarshal jwksData = .ok jwks) (hne : jwks ≠ [])
    (hold : old ∈ s.KeyReadAll) (habs : old ∉ jwks.map JWK.Kid) :
    (VulnerableRefreshStates unmarshal jwksData s)[jwks.length - 1]? =
        some (vulnerableAfterWrites jwks s) ∧
      (∀ key ∈ jwks, ((vulnerableAfterWrites jwks s).KeyRead key.Kid).isSome = true) ∧
      (vulnerableAfterWrites jwks s).KeyRead old = s.KeyRead old ∧
      ((vulnerableAfterWrites jwks s).KeyRead old).isSome = true ∧
      ∃ first rest, jwks = first :: rest ∧
        (VulnerableRefreshStates unmarshal jwksData s)[0]? =
          some (s.KeyWrite first.Kid first.K) ∧
        ((s.KeyWrite first.Kid first.K).KeyRead first.Kid).isSome = true ∧
        ((s.KeyWrite first.Kid first.K).KeyRead old).isSome = true := by
  have hsome : (s.KeyRead old).isSome = true := (VulnerableStorage.mem_KeyReadAll_iff s old).mp hold
  have hread : (vulnerableAfterWrites jwks s).KeyRead old = s.KeyRead old := by
    rw [KeyRead_vulnerableAfterWrites, (lastMaterial_eq_none_iff jwks old).mpr habs]
  obtain ⟨first, rest, rfl⟩ := List.exists_cons_of_ne_nil hne
  rw [VulnerableRefreshStates_ok unmarshal jwksData s _ hparse]
  refine ⟨?_, ?_, hread, by rw [hread]; exact hsome, first, rest, rfl, ?_, ?_, ?_⟩
  · have hlen : (first :: rest).length - 1 <
        (statesAfter (fun st key => st.KeyWrite key.Kid key.K) s (first :: rest)).length := by
      rw [length_statesAfter]
      simp
    rw [List.getElem?_append_left hlen]
    have h := getElem?_cons_statesAfter (fun st key => st.KeyWrite key.Kid key.K) rest
      (s.KeyWrite first.Kid first.K) rest.length (le_refl _)
    simp only [List.take_length] at h
    rw [vulnerableAfterWrites, foldl_vulnerableWriteStep_fst]
    simpa [statesAfter] using h
  · intro key hkey
    rw [KeyRead_vulnerableAfterWrites]
    cases hl : lastMaterial (first :: rest) key.Kid with
    | some v => rfl
    | none =>
      exact absurd (List.mem_map_of_mem JWK.Kid hkey)
        ((lastMaterial_eq_none_iff _ _).mp hl)
  · simp [statesAfter]
  · simp [VulnerableStorage.KeyRead_KeyWrite]
  · rw [VulnerableStorage.KeyRead_KeyWrite]
    split
    · rfl
    · exact hsome

set_option maxRecDepth 100000 in
/-- C2, the test of `testVulnerable`: initial store `old`, document
`new-0 .. new-99`; after the first `KeyWrite` both `new-0` and `old` are
readable. -/
theorem VulnerableRefresh_revocation_window_witness :
    (parsedAs (newDocument 100) [] = .ok (newDocument 100) ∧ newDocument 100 ≠ [] ∧
      "old" ∈ (storeOf ["old"]).KeyReadAll ∧ "old" ∉ (newDocument 100).map JWK.Kid) ∧
    ((VulnerableRefreshStates (parsedAs (newDocument 100)) [] (storeOf ["old"]))[
          (newDocument 100).length - 1]? =
        some (vulnerableAfterWrites (newDocument 100) (storeOf ["old"])) ∧
      (∀ key ∈ newDocument 100,
        ((vulnerableAfterWrites (newDocument 100) (storeOf ["old"])).KeyRead key.Kid).isSome
          = true) ∧
      (vulnerableAfterWrites (newDocument 100) (storeOf ["old"])).KeyRead "old" =
        (storeOf ["old"]).KeyRead "old" ∧
      ((vulnerableAfterWrites (newDocument 100) (storeOf ["old"])).KeyRead "old").isSome
        = true ∧
      ∃ first rest, newDocument 100 = first :: rest ∧
        (VulnerableRefreshStates (parsedAs (newDocument 100)) [] (storeOf ["old"]))[0]? =
          some ((storeOf ["old"]).KeyWrite first.Kid first.K) ∧
        (((storeOf ["old"]).KeyWrite first.Kid first.K).KeyRead first.Kid).isSome = true ∧
        (((storeOf ["old"]).KeyWrite first.Kid first.K).KeyRead "old").isSome = true) ∧
    (((storeOf ["old"]).KeyWrite "new-0" "QUFBQQ").KeyRead "new-0" = some "QUFBQQ" ∧
      ((storeOf ["old"]).KeyWrite "new-0" "QUFBQQ").KeyRead "old" = some "QUFBQQ" ∧
      (newDocument 100).head? = some (octKey "new-0")) :=
  ⟨⟨rfl, by decide, by decide, by decide⟩,
    VulnerableRefresh_revocation_window (parsedAs (newDocument 100)) [] (storeOf ["old"])
      (newDocument 100) "old" rfl (by decide) (by decide) (by decide),
    by decide, by decide, by decide⟩

/-- C3, evaluated on store `a, b` refreshed with document `c, d`: the states
produced by `FixedRefresh` hold the kids `b`, then none, then `c`, then
`c, d`; the state after the second call (the empty store) differs from the
store before the refresh at `a` and from the store after it at `c`, so a reader
can observe a set that is neither the old nor the new one. -/
theorem FixedRefresh_not_atomic :
    (FixedRefreshStates (parsedAs [octKey "c", octKey "d"]) [] (storeOf ["a", "b"])).map
        VulnerableStorage.KeyReadAll = [["b"], [], ["c"], ["c", "d"]] ∧
      ∃ st, (FixedRefreshStates (parsedAs [octKey "c", octKey "d"]) []
          (storeOf ["a", "b"]))[1]? = some st ∧
        st.KeyReadAll = [] ∧
        st.KeyRead "a" ≠ (storeOf ["a", "b"]).KeyRead "a" ∧
        st.KeyRead "c" ≠
          (FixedRefresh (parsedAs [octKey "c", octKey "d"]) [] (storeOf ["a", "b"])).2.KeyRead
            "c" :=
  ⟨by decide, _, rfl, by decide, by decide, by decide⟩

/-- C4, evaluated on store `b` refreshed with document `b`: `FixedRefresh`
produces the states with kids none, then `b`; the state after the `KeyDelete`
call is reached before the last step and does not have `b` readable, although
`b` is in both sets, so not every kid of the initial store stays readable
until the last step; `VulnerableRefresh` on the same input keeps `b` readable
in its only state. -/
theorem FixedRefresh_availability_gap :
    (FixedRefreshStates (parsedAs [octKey "b"]) [] (storeOf ["b"])).map
        VulnerableStorage.KeyReadAll = [[], ["b"]] ∧
      (storeOf ["b"]).KeyRead "b" = some "QUFBQQ" ∧
      (FixedRefreshStates (parsedAs [octKey "b"]) [] (storeOf ["b"])).map
        (fun st => st.KeyRead "b") = [none, some "QUFBQQ"] ∧
      ¬ (∀ st ∈ (storeOf ["b"] ::
            FixedRefreshStates (parsedAs [octKey "b"]) [] (storeOf ["b"])).dropLast,
          ∀ kid ∈ (storeOf ["b"]).KeyReadAll, (st.KeyRead kid).isSome = true) ∧
      (VulnerableRefreshStates (parsedAs [octKey "b"]) [] (storeOf ["b"])).map
        (fun st => st.KeyRead "b") = [some "QUFBQQ"] := by
  refine ⟨by decide, by decide, by decide, ?_, by decide⟩
  intro h
  have h1 := h ((storeOf ["b"]).KeyDelete "b") (List.Mem.tail _ (List.Mem.head _)) "b"
    (List.Mem.head _)
  revert h1
  decide

/-- C5. Final state of a completed refresh: when the document decodes,
`FixedRefresh` returns nil and afterwards `KeyRead(kid)` succeeds exactly for
the kids of the document; the value it returns is the `K` of a record of the
document with that kid (the last one in document order); every kid of the
initial store that is not in the document is not found. -/
theorem FixedRefresh_final_state {ε : Type}
    (unmarshal : List UInt8 → Except ε (List JWK)) (jwksData : List UInt8)
    (s : VulnerableStorage String) (jwks : List JWK)
    (hparse : unmarshal jwksData = .ok jwks) :
    (FixedRefresh unmarshal jwksData s).1 = none ∧
      (∀ kid, ((FixedRefresh unmarshal jwksData s).2.KeyRead kid).isSome = true ↔
        kid ∈ jwks.map JWK.Kid) ∧
      (∀ kid v, (FixedRefresh unmarshal jwksData s).2.KeyRead kid = some v →
        ∃ key ∈ jwks, key.Kid = kid ∧ key.K = v) ∧
      (∀ kid, (FixedRefresh unmarshal jwksData s).2.KeyRead kid = lastMaterial jwks kid) ∧
      (∀ kid ∈ s.KeyReadAll, kid ∉ jwks.map JWK.Kid →
        (FixedRefresh unmarshal jwksData s).2.KeyRead kid = none) := by
  have hread := KeyRead_FixedRefresh unmarshal jwksData s jwks hparse
  refine ⟨?_, ?_, ?_, hread, ?_⟩
  · rw [FixedRefresh_ok unmarshal jwksData s jwks hparse]
  · intro kid
    rw [hread, lastMaterial_isSome_iff]
  · intro kid v hv
    rw [hread] at hv
    exact lastMaterial_mem jwks kid v hv
  · intro kid _ hnot
    rw [hread]
    exact (lastMaterial_eq_none_iff jwks kid).mpr hnot

set_option maxRecDepth 100000 in
/-- C5, the two scenarios: store `a, b, c` refreshed with `b, c, d` leaves `a`
not found and `b`, `c`, `d` found with the unchanged material; store `old`
refreshed with `new-0 .. new-99` leaves `old` not found. -/
theorem FixedRefresh_final_state_witness :
    parsedAs [octKey "b", octKey "c", octKey "d"] [] =
        .ok [octKey "b", octKey "c", octKey "d"] ∧
    ((FixedRefresh (parsedAs [octKey "b", octKey "c", octKey "d"]) []
        (storeOf ["a", "b", "c"])).2.KeyRead "a" = none ∧
      (FixedRefresh (parsedAs [octKey "b", octKey "c", octKey "d"]) []
        (storeOf ["a", "b", "c"])).2.KeyRead "b" = (storeOf ["a", "b", "c"]).KeyRead "b" ∧
      (FixedRefresh (parsedAs [octKey "b", octKey "c", octKey "d"]) []
        (storeOf ["a", "b", "c"])).2.KeyRead "c" = (storeOf ["a", "b", "c"]).KeyRead "c" ∧
      (FixedRefresh (parsedAs [octKey "b", octKey "c", octKey "d"]) []
        (storeOf ["a", "b", "c"])).2.KeyRead "d" = some "QUFBQQ") ∧
    (FixedRefresh (parsedAs (newDocument 100)) [] (storeOf ["old"])).2.KeyRead "old" = none :=
  ⟨rfl,
    ⟨(FixedRefresh_final_state (parsedAs [octKey "b", octKey "c", octKey "d"]) []
        (storeOf ["a", "b", "c"]) _ rfl).2.2.2.2 "a" (by decide) (by decide),
      ((FixedRefresh_final_state (parsedAs [octKey "b", octKey "c", octKey "d"]) []
        (storeOf ["a", "b", "c"]) _ rfl).2.2.2.1 "b").trans (by decide),
      ((FixedRefresh_final_state (parsedAs [octKey "b", octKey "c", octKey "d"]) []
        (storeOf ["a", "b", "c"]) _ rfl).2.2.2.1 "c").trans (by decide),
      ((FixedRefresh_final_state (parsedAs [octKey "b", octKey "c", octKey "d"]) []
        (storeOf ["a", "b", "c"]) _ rfl).2.2.2.1 "d").trans (by decide)⟩,
    (FixedRefresh_final_state (parsedAs (newDocument 100)) [] (storeOf ["old"]) _ rfl).2.2.2.2
      "old" (by decide) (by decide)⟩

/-- C6. Failure isolation: when decoding fails with `err`, both
`VulnerableRefresh` and `FixedRefresh` return `err`, make no `KeyWrite` or
`KeyDelete` call, and leave the store, hence every `KeyRead` and the result of
`KeyReadAll`, as it was. -/
theorem refresh_failure_isolation {ε : Type}
    (unmarshal : List UInt8 → Except ε (List JWK)) (jwksData : List UInt8)
    (s : VulnerableStorage String) (err : ε)
    (hparse : unmarshal jwksData = .error err) :
    (VulnerableRefresh unmarshal jwksData s).1 = some err ∧
      (FixedRefresh unmarshal jwksData s).1 = some err ∧
      VulnerableRefreshStates unmarshal jwksData s = [] ∧
      FixedRefreshStates unmarshal jwksData s = [] ∧
      (VulnerableRefresh unmarshal jwksData s).2 = s ∧
      (FixedRefresh unmarshal jwksData s).2 = s ∧
      (VulnerableRefresh unmarshal jwksData s).2.KeyReadAll = s.KeyReadAll ∧
      (FixedRefresh unmarshal jwksData s).2.KeyReadAll = s.KeyReadAll := by
  simp only [VulnerableRefresh, FixedRefresh, VulnerableRefreshStates, FixedRefreshStates,
    hparse, and_self]

/-- C6 on the store `a, b` and a decoder that rejects the input. -/
theorem refresh_failure_isolation_witness :
    rejectedWith "unexpected end of JSON input" [123] =
        .error "unexpected end of JSON input" ∧
    ((VulnerableRefresh (rejectedWith "unexpected end of JSON input") [123]
          (storeOf ["a", "b"])).1 = some "unexpected end of JSON input" ∧
      (FixedRefresh (rejectedWith "unexpected end of JSON input") [123]
          (storeOf ["a", "b"])).1 = some "unexpected end of JSON input" ∧
      VulnerableRefreshStates (rejectedWith "unexpected end of JSON input") [123]
          (storeOf ["a", "b"]) = [] ∧
      FixedRefreshStates (rejectedWith "unexpected end of JSON input") [123]
          (storeOf ["a", "b"]) = [] ∧
      (VulnerableRefresh (rejectedWith "unexpected end of JSON input") [123]
          (storeOf ["a", "b"])).2 = storeOf ["a", "b"] ∧
      (FixedRefresh (rejectedWith "unexpected end of JSON input") [123]
          (storeOf ["a", "b"])).2 = storeOf ["a", "b"] ∧
      (VulnerableRefresh (rejectedWith "unexpected end of JSON input") [123]
          (storeOf ["a", "b"])).2.KeyReadAll = (storeOf ["a", "b"]).KeyReadAll ∧
      (FixedRefresh (rejectedWith "unexpected end of JSON input") [123]
          (storeOf ["a", "b"])).2.KeyReadAll = (storeOf ["a", "b"]).KeyReadAll) :=
  ⟨rfl, refresh_failure_isolation (rejectedWith "unexpected end of JSON input") [123]
    (storeOf ["a", "b"]) "unexpected end of JSON input" rfl⟩

/-- C7. Idempotence of repeated refresh: when the document decodes, running
`FixedRefresh` on the same input a second time leaves every `KeyRead` as after
the first run, and `KeyReadAll` a reordering of what it was after the first
run. -/
theorem FixedRefresh_idempotent {ε : Type}
    (unmarshal : List UInt8 → Except ε (List JWK)) (jwksData : List UInt8)
    (s : VulnerableStorage String) (jwks : List JWK)
    (hparse : unmarshal jwksData = .ok jwks) :
    (∀ kid, (FixedRefresh unmarshal jwksData
          (FixedRefresh unmarshal jwksData s).2).2.KeyRead kid =
        (FixedRefresh unmarshal jwksData s).2.KeyRead kid) ∧
      List.Perm
        (FixedRefresh unmarshal jwksData (FixedRefresh unmarshal jwksData s).2).2.KeyReadAll
        (FixedRefresh unmarshal jwksData s).2.KeyReadAll := by
  have hread : ∀ kid, (FixedRefresh unmarshal jwksData
        (FixedRefresh unmarshal jwksData s).2).2.KeyRead kid =
      (FixedRefresh unmarshal jwksData s).2.KeyRead kid := by
    intro kid
    rw [KeyRead_FixedRefresh unmarshal jwksData _ jwks hparse,
      KeyRead_FixedRefresh unmarshal jwksData _ jwks hparse]
  refine ⟨hread, ?_⟩
  refine (List.perm_ext_iff_of_nodup (VulnerableStorage.nodup _)
    (VulnerableStorage.nodup _)).mpr ?_
  intro kid
  have h1 := VulnerableStorage.mem_KeyReadAll_iff
    (FixedRefresh unmarshal jwksData (FixedRefresh unmarshal jwksData s).2).2 kid
  have h2 := VulnerableStorage.mem_KeyReadAll_iff (FixedRefresh unmarshal jwksData s).2 kid
  rw [hread] at h1
  exact h1.trans h2.symm

/-- C7 on the store `old` and the document `b, c, d`. -/
theorem FixedRefresh_idempotent_witness :
    parsedAs [octKey "b", octKey "c", octKey "d"] [] =
        .ok [octKey "b", octKey "c", octKey "d"] ∧
    ((∀ kid, (FixedRefresh (parsedAs [octKey "b", octKey "c", octKey "d"]) []
          (FixedRefresh (parsedAs [octKey "b", octKey "c", octKey "d"]) []
            (storeOf ["old"])).2).2.KeyRead kid =
        (FixedRefresh (parsedAs [octKey "b", octKey "c", octKey "d"]) []
          (storeOf ["old"])).2.KeyRead kid) ∧
      List.Perm
        (FixedRefresh (parsedAs [octKey "b", octKey "c", octKey "d"]) []
          (FixedRefresh (parsedAs [octKey "b", octKey "c", octKey "d"]) []
            (storeOf ["old"])).2).2.KeyReadAll
        (FixedRefresh (parsedAs [octKey "b", octKey "c", octKey "d"]) []
          (storeOf ["old"])).2.KeyReadAll) :=
  ⟨rfl, FixedRefresh_idempotent (parsedAs [octKey "b", octKey "c", octKey "d"]) []
    (storeOf ["old"]) _ rfl⟩

/-- C8 as stated fails: the document holds the kid `k` twice, and both refresh
functions return nil and change the store `a` (afterwards `k` is readable and
`a` is not). -/
theorem refresh_duplicate_kid_not_rejected :
    (FixedRefresh (parsedAs [⟨"k", "oct", "one"⟩, ⟨"k", "oct", "two"⟩]) []
        (storeOf ["a"])).1 = none ∧
      (VulnerableRefresh (parsedAs [⟨"k", "oct", "one"⟩, ⟨"k", "oct", "two"⟩]) []
        (storeOf ["a"])).1 = none ∧
      (storeOf ["a"]).KeyRead "a" = some "QUFBQQ" ∧
      (storeOf ["a"]).KeyRead "k" = none ∧
      (FixedRefresh (parsedAs [⟨"k", "oct", "one"⟩, ⟨"k", "oct", "two"⟩]) []
        (storeOf ["a"])).2.KeyRead "a" = none ∧
      (FixedRefresh (parsedAs [⟨"k", "oct", "one"⟩, ⟨"k", "oct", "two"⟩]) []
        (storeOf ["a"])).2.KeyRead "k" = some "two" ∧
      (VulnerableRefresh (parsedAs [⟨"k", "oct", "one"⟩, ⟨"k", "oct", "two"⟩]) []
        (storeOf ["a"])).2.KeyRead "a" = none ∧
      (VulnerableRefresh (parsedAs [⟨"k", "oct", "one"⟩, ⟨"k", "oct", "two"⟩]) []
        (storeOf ["a"])).2.KeyRead "k" = some "two" := by
  decide

/-- C8 as amended.  When the document decodes and two of its records share the
kid `kid`, neither refresh function fails: both return nil, and afterwards
`KeyRead` succeeds exactly for the kids of the document, `kid` among them. -/
theorem refresh_duplicate_kid_accepted {ε : Type}
    (unmarshal : List UInt8 → Except ε (List JWK)) (jwksData : List UInt8)
    (s : VulnerableStorage String) (jwks : List JWK) (kid : String)
    (hparse : unmarshal jwksData = .ok jwks)
    (hdup : 2 ≤ (jwks.map JWK.Kid).count kid) :
    (VulnerableRefresh unmarshal jwksData s).1 = none ∧
      (FixedRefresh unmarshal jwksData s).1 = none ∧
      (∀ k, ((VulnerableRefresh unmarshal jwksData s).2.KeyRead k).isSome = true ↔
        k ∈ jwks.map JWK.Kid) ∧
      (∀ k, ((FixedRefresh unmarshal jwksData s).2.KeyRead k).isSome = true ↔
        k ∈ jwks.map JWK.Kid) ∧
      ((VulnerableRefresh unmarshal jwksData s).2.KeyRead kid).isSome = true ∧
      ((FixedRefresh unmarshal jwksData s).2.KeyRead kid).isSome = true := by
  have hmem : kid ∈ jwks.map JWK.Kid := by
    apply List.count_pos_iff.mp
    omega
  have hv : ∀ k, ((VulnerableRefresh unmarshal jwksData s).2.KeyRead k).isSome = true ↔
      k ∈ jwks.map JWK.Kid := by
    intro k
    rw [KeyRead_VulnerableRefresh unmarshal jwksData s jwks hparse, lastMaterial_isSome_iff]
  have hf : ∀ k, ((FixedRefresh unmarshal jwksData s).2.KeyRead k).isSome = true ↔
      k ∈ jwks.map JWK.Kid := by
    intro k
    rw [KeyRead_FixedRefresh unmarshal jwksData s jwks hparse, lastMaterial_isSome_iff]
  refine ⟨?_, ?_, hv, hf, (hv kid).mpr hmem, (hf kid).mpr hmem⟩
  · rw [VulnerableRefresh_ok unmarshal jwksData s jwks hparse]
  · rw [FixedRefresh_ok unmarshal jwksData s jwks hparse]

/-- C8 as amended, on the store `a` and a document holding the kid `k` twice. -/
theorem refresh_duplicate_kid_accepted_witness :
    (parsedAs [⟨"k", "oct", "one"⟩, ⟨"k", "oct", "two"⟩] [] =
        .ok [⟨"k", "oct", "one"⟩, ⟨"k", "oct", "two"⟩] ∧
      2 ≤ (([⟨"k", "oct", "one"⟩, ⟨"k", "oct", "two"⟩] : List JWK).map JWK.Kid).count "k") ∧
    ((VulnerableRefresh (parsedAs [⟨"k", "oct", "one"⟩, ⟨"k", "oct", "two"⟩]) []
        (storeOf ["a"])).1 = none ∧
      (FixedRefresh (parsedAs [⟨"k", "oct", "one"⟩, ⟨"k", "oct", "two"⟩]) []
        (storeOf ["a"])).1 = none ∧
      (∀ k, ((VulnerableRefresh (parsedAs [⟨"k", "oct", "one"⟩, ⟨"k", "oct", "two"⟩]) []
          (storeOf ["a"])).2.KeyRead k).isSome = true ↔
        k ∈ ([⟨"k", "oct", "one"⟩, ⟨"k", "oct", "two"⟩] : List JWK).map JWK.Kid) ∧
      (∀ k, ((FixedRefresh (parsedAs [⟨"k", "oct", "one"⟩, ⟨"k", "oct", "two"⟩]) []
          (storeOf ["a"])).2.KeyRead k).isSome = true ↔
        k ∈ ([⟨"k", "oct", "one"⟩, ⟨"k", "oct", "two"⟩] : List JWK).map JWK.Kid) ∧
      ((VulnerableRefresh (parsedAs [⟨"k", "oct", "one"⟩, ⟨"k", "oct", "two"⟩]) []
        (storeOf ["a"])).2.KeyRead "k").isSome = true ∧
      ((FixedRefresh (parsedAs [⟨"k", "oct", "one"⟩, ⟨"k", "oct", "two"⟩]) []
        (storeOf ["a"])).2.KeyRead "k").isSome = true) :=
  ⟨⟨rfl, by decide⟩,
    refresh_duplicate_kid_accepted (parsedAs [⟨"k", "oct", "one"⟩, ⟨"k", "oct", "two"⟩]) []
      (storeOf ["a"]) [⟨"k", "oct", "one"⟩, ⟨"k", "oct", "two"⟩] "k" rfl (by decide)⟩

/-- C9. `KeyReadAll` reflects exactly the membership of the store: it contains
a kid if and only if `KeyRead` of that kid succeeds, it contains no kid twice,
and its length is the number of entries of the map, which is the number of
distinct readable kids. -/
theorem KeyReadAll_reflects_membership {α : Type} (s : VulnerableStorage α) :
    (∀ kid, kid ∈ s.KeyReadAll ↔ (s.KeyRead kid).isSome = true) ∧
      s.KeyReadAll.Nodup ∧
      s.KeyReadAll.length = s.keys.length ∧
      s.KeyReadAll.length =
        (s.KeyReadAll.toFinset.filter (fun kid => (s.KeyRead kid).isSome = true)).card := by
  refine ⟨VulnerableStorage.mem_KeyReadAll_iff s, s.nodup, by simp [VulnerableStorage.KeyReadAll],
    ?_⟩
  have hfilter : s.KeyReadAll.toFinset.filter (fun kid => (s.KeyRead kid).isSome = true) =
      s.KeyReadAll.toFinset := by
    apply Finset.filter_true_of_mem
    intro kid hkid
    exact (VulnerableStorage.mem_KeyReadAll_iff s kid).mp (List.mem_toFinset.mp hkid)
  rw [hfilter, List.toFinset_card_of_nodup]
  exact s.nodup

/-- C10. `VulnerableRefresh` never drops a key present in both sets: when the
document decodes, a kid that is in the initial store and in the document is
readable in the initial state and in every state produced by a `KeyWrite` or
`KeyDelete` call of `VulnerableRefresh`. -/
theorem VulnerableRefresh_keeps_common_keys {ε : Type}
    (unmarshal : List UInt8 → Except ε (List JWK)) (jwksData : List UInt8)
    (s : VulnerableStorage String) (jwks : List JWK) (kid : String)
    (hparse : unmarshal jwksData = .ok jwks)
    (hold : kid ∈ s.KeyReadAll) (hnew : kid ∈ jwks.map JWK.Kid) :
    ∀ st ∈ s :: VulnerableRefreshStates unmarshal jwksData s,
      (st.KeyRead kid).isSome = true := by
  intro st hst
  have hs : (s.KeyRead kid).isSome = true := (VulnerableStorage.mem_KeyReadAll_iff s kid).mp hold
  rw [VulnerableRefreshStates_ok unmarshal jwksData s jwks hparse] at hst
  simp only [List.mem_cons, List.mem_append] at hst
  rcases hst with rfl | hst | hst
  · exact hs
  · obtain ⟨pre, suf, _, _, rfl⟩ := (mem_statesAfter _ _ _ _).mp hst
    rw [KeyRead_foldl_KeyWrite]
    cases lastMaterial pre kid with
    | some v => rfl
    | none => exact hs
  · obtain ⟨pre, suf, hsplit, _, rfl⟩ := (mem_statesAfter _ _ _ _).mp hst
    have hnot : kid ∉ pre := by
      intro hc
      have hstale : kid ∈ staleKids s.KeyReadAll (jwks.foldl vulnerableWriteStep (s, [])).2 := by
        rw [hsplit]
        exact List.mem_append_left _ hc
      exact ((mem_staleKids _ _ _ _).mp hstale).2 hnew
    rw [KeyRead_foldl_KeyDelete, if_neg hnot, KeyRead_vulnerableAfterWrites]
    cases hl : lastMaterial jwks kid with
    | some v => rfl
    | none => exact absurd hnew ((lastMaterial_eq_none_iff jwks kid).mp hl)

/-- C10 on the store `a, b, c`, the document `b, c, d` and the kid `b`. -/
theorem VulnerableRefresh_keeps_common_keys_witness :
    (parsedAs [octKey "b", octKey "c", octKey "d"] [] =
        .ok [octKey "b", octKey "c", octKey "d"] ∧
      "b" ∈ (storeOf ["a", "b", "c"]).KeyReadAll ∧
      "b" ∈ [octKey "b", octKey "c", octKey "d"].map JWK.Kid) ∧
    ∀ st ∈ storeOf ["a", "b", "c"] ::
        VulnerableRefreshStates (parsedAs [octKey "b", octKey "c", octKey "d"]) []
          (storeOf ["a", "b", "c"]),
      (st.KeyRead "b").isSome = true :=
  ⟨⟨rfl, by decide, by decide⟩,
    VulnerableRefresh_keeps_common_keys (parsedAs [octKey "b", octKey "c", octKey "d"]) []
      (storeOf ["a", "b", "c"]) _ "b" rfl (by decide) (by decide)⟩

/-- C11. `VulnerableRefresh` and `FixedRefresh` agree on the final state: on
every store and every input both return the same error result and leave
stores in which every `KeyRead` gives the same answer, so that also their
`KeyReadAll` results hold the same kids. -/
theorem VulnerableRefresh_FixedRefresh_agree {ε : Type}
    (unmarshal : List UInt8 → Except ε (List JWK)) (jwksData : List UInt8)
    (s : VulnerableStorage String) :
    (VulnerableRefresh unmarshal jwksData s).1 = (FixedRefresh unmarshal jwksData s).1 ∧
      (∀ kid, (VulnerableRefresh unmarshal jwksData s).2.KeyRead kid =
        (FixedRefresh unmarshal jwksData s).2.KeyRead kid) ∧
      List.Perm (VulnerableRefresh unmarshal jwksData s).2.KeyReadAll
        (FixedRefresh unmarshal jwksData s).2.KeyReadAll := by
  have hread : ∀ kid, (VulnerableRefresh unmarshal jwksData s).2.KeyRead kid =
      (FixedRefresh unmarshal jwksData s).2.KeyRead kid := by
    intro kid
    cases hparse : unmarshal jwksData with
    | error err => simp only [VulnerableRefresh, FixedRefresh, hparse]
    | ok jwks =>
      rw [KeyRead_VulnerableRefresh unmarshal jwksData s jwks hparse,
        KeyRead_FixedRefresh unmarshal jwksData s jwks hparse]
  refine ⟨?_, hread, ?_⟩
  · cases hparse : unmarshal jwksData with
    | error err => simp only [VulnerableRefresh, FixedRefresh, hparse]
    | ok jwks => simp only [VulnerableRefresh, FixedRefresh, hparse]
  · refine (List.perm_ext_iff_of_nodup (VulnerableStorage.nodup _)
      (VulnerableStorage.nodup _)).mpr ?_
    intro kid
    have h1 := VulnerableStorage.mem_KeyReadAll_iff (VulnerableRefresh unmarshal jwksData s).2 kid
    have h2 := VulnerableStorage.mem_KeyReadAll_iff (FixedRefresh unmarshal jwksData s).2 kid
    rw [hread] at h1
    exact h1.trans h2.symm

/-- C12. Duplicate kids resolve by last-write-wins: when the document decodes
and `key` is its last record with the kid `key.Kid`, however many earlier
records have the same kid, both refresh functions return nil, afterwards
`KeyRead` of that kid returns the material of `key`, and `KeyReadAll` lists the
kid exactly once. -/
theorem refresh_last_write_wins {ε : Type}
    (unmarshal : List UInt8 → Except ε (List JWK)) (jwksData : List UInt8)
    (s : VulnerableStorage String) (jwks pre suf : List JWK) (key : JWK)
    (hparse : unmarshal jwksData = .ok jwks)
    (hsplit : jwks = pre ++ key :: suf)
    (hlast : ∀ later ∈ suf, later.Kid ≠ key.Kid) :
    (VulnerableRefresh unmarshal jwksData s).1 = none ∧
      (FixedRefresh unmarshal jwksData s).1 = none ∧
      (VulnerableRefresh unmarshal jwksData s).2.KeyRead key.Kid = some key.K ∧
      (FixedRefresh unmarshal jwksData s).2.KeyRead key.Kid = some key.K ∧
      (VulnerableRefresh unmarshal jwksData s).2.KeyReadAll.count key.Kid = 1 ∧
      (FixedRefresh unmarshal jwksData s).2.KeyReadAll.count key.Kid = 1 := by
  have hlm : lastMaterial jwks key.Kid = some key.K := by
    rw [hsplit]
    exact lastMaterial_append_last pre suf key hlast
  have hv : (VulnerableRefresh unmarshal jwksData s).2.KeyRead key.Kid = some key.K := by
    rw [KeyRead_VulnerableRefresh unmarshal jwksData s jwks hparse, hlm]
  have hf : (FixedRefresh unmarshal jwksData s).2.KeyRead key.Kid = some key.K := by
    rw [KeyRead_FixedRefresh unmarshal jwksData s jwks hparse, hlm]
  refine ⟨?_, ?_, hv, hf, ?_, ?_⟩
  · rw [VulnerableRefresh_ok unmarshal jwksData s jwks hparse]
  · rw [FixedRefresh_ok unmarshal jwksData s jwks hparse]
  · apply List.count_eq_one_of_mem (VulnerableStorage.nodup _)
    apply (VulnerableStorage.mem_KeyReadAll_iff _ _).mpr
    rw [hv]
    rfl
  · apply List.count_eq_one_of_mem (VulnerableStorage.nodup _)
    apply (VulnerableStorage.mem_KeyReadAll_iff _ _).mpr
    rw [hf]
    rfl

/-- C12 on the store `k, a` and the document `k, k, b`, the two records for `k`
giving `one` and `two`: `k` reads `two`. -/
theorem refresh_last_write_wins_witness :
    (parsedAs [⟨"k", "oct", "one"⟩, ⟨"k", "oct", "two"⟩, ⟨"b", "oct", "x"⟩] [] =
        .ok [⟨"k", "oct", "one"⟩, ⟨"k", "oct", "two"⟩, ⟨"b", "oct", "x"⟩] ∧
      ([⟨"k", "oct", "one"⟩, ⟨"k", "oct", "two"⟩, ⟨"b", "oct", "x"⟩] : List JWK) =
        [⟨"k", "oct", "one"⟩] ++ ⟨"k", "oct", "two"⟩ :: [⟨"b", "oct", "x"⟩] ∧
      ∀ later ∈ ([⟨"b", "oct", "x"⟩] : List JWK), later.Kid ≠ "k") ∧
    ((VulnerableRefresh (parsedAs [⟨"k", "oct", "one"⟩, ⟨"k", "oct", "two"⟩,
          ⟨"b", "oct", "x"⟩]) [] (storeOf ["k", "a"])).1 = none ∧
      (FixedRefresh (parsedAs [⟨"k", "oct", "one"⟩, ⟨"k", "oct", "two"⟩,
          ⟨"b", "oct", "x"⟩]) [] (storeOf ["k", "a"])).1 = none ∧
      (VulnerableRefresh (parsedAs [⟨"k", "oct", "one"⟩, ⟨"k", "oct", "two"⟩,
          ⟨"b", "oct", "x"⟩]) [] (storeOf ["k", "a"])).2.KeyRead "k" = some "two" ∧
      (FixedRefresh (parsedAs [⟨"k", "oct", "one"⟩, ⟨"k", "oct", "two"⟩,
          ⟨"b", "oct", "x"⟩]) [] (storeOf ["k", "a"])).2.KeyRead "k" = some "two" ∧
      (VulnerableRefresh (parsedAs [⟨"k", "oct", "one"⟩, ⟨"k", "oct", "two"⟩,
          ⟨"b", "oct", "x"⟩]) [] (storeOf ["k", "a"])).2.KeyReadAll.count "k" = 1 ∧
      (FixedRefresh (parsedAs [⟨"k", "oct", "one"⟩, ⟨"k", "oct", "two"⟩,
          ⟨"b", "oct", "x"⟩]) [] (storeOf ["k", "a"])).2.KeyReadAll.count "k" = 1) :=
  ⟨⟨rfl, rfl, by decide⟩,
    refresh_last_write_wins (parsedAs [⟨"k", "oct", "one"⟩, ⟨"k", "oct", "two"⟩,
        ⟨"b", "oct", "x"⟩]) [] (storeOf ["k", "a"])
      [⟨"k", "oct", "one"⟩, ⟨"k", "oct", "two"⟩, ⟨"b", "oct", "x"⟩]
      [⟨"k", "oct", "one"⟩] [⟨"b", "oct", "x"⟩] ⟨"k", "oct", "two"⟩ rfl rfl (by decide)⟩

/-- C13. `KeyWrite` is a point update: after `KeyWrite(kid, key)` a `KeyRead`
of `kid` returns `key`, a `KeyRead` of any other kid returns what it returned
before, and the stored kids are those stored before together with `kid`. -/
theorem KeyWrite_point_update {α : Type} (s : VulnerableStorage α) (kid : String) (key : α) :
    (s.KeyWrite kid key).KeyRead kid = some key ∧
      (∀ k, (s.KeyWrite kid key).KeyRead k = if k = kid then some key else s.KeyRead k) ∧
      (∀ k, k ∈ (s.KeyWrite kid key).KeyReadAll ↔ k = kid ∨ k ∈ s.KeyReadAll) := by
  have hread := VulnerableStorage.KeyRead_KeyWrite s kid key
  refine ⟨by rw [hread, if_pos rfl], hread, ?_⟩
  intro k
  rw [VulnerableStorage.mem_KeyReadAll_iff, VulnerableStorage.mem_KeyReadAll_iff, hread]
  by_cases h : k = kid
  · simp [h]
  · simp [h]

/-- C14. `KeyDelete` is a point removal: after `KeyDelete(kid)` a `KeyRead` of
`kid` reports not found, a `KeyRead` of any other kid returns what it returned
before, deleting a kid that is not stored leaves the store as it is, and a
second `KeyDelete` of the same kid changes nothing. -/
theorem KeyDelete_point_removal {α : Type} (s : VulnerableStorage α) (kid : String) :
    (s.KeyDelete kid).KeyRead kid = none ∧
      (∀ k, (s.KeyDelete kid).KeyRead k = if k = kid then none else s.KeyRead k) ∧
      (kid ∉ s.KeyReadAll → s.KeyDelete kid = s) ∧
      (s.KeyDelete kid).KeyDelete kid = s.KeyDelete kid := by
  have hread := VulnerableStorage.KeyRead_KeyDelete s kid
  refine ⟨by rw [hread, if_pos rfl], hread, ?_, ?_⟩
  · intro hnot
    cases s with
    | mk keys nodup =>
      simp only [VulnerableStorage.KeyDelete, VulnerableStorage.mk.injEq]
      exact deleteEntry_eq_self kid keys hnot
  · cases s with
    | mk keys nodup =>
      simp only [VulnerableStorage.KeyDelete, VulnerableStorage.mk.injEq]
      exact deleteEntry_eq_self kid _ (deleteEntry_not_mem kid keys)

/-- C14 on the store `a, b`: deleting the kid `c`, which is not stored, leaves
the store as it is. -/
theorem KeyDelete_point_removal_witness :
    "c" ∉ (storeOf ["a", "b"]).KeyReadAll ∧ (storeOf ["a", "b"]).KeyDelete "c" = storeOf ["a", "b"] :=
  ⟨by decide, (KeyDelete_point_removal (storeOf ["a", "b"]) "c").2.2.1 (by decide)⟩

/-- C15. `itoa` converts an `int` to its decimal string.  For every `i` with
`0 ≤ i` in the range of a 64-bit `int`, `itoa(i)` returns a non-empty string of
ASCII digits, without a leading zero unless `i = 0`, where it is `"0"`, and
reading the string as a base-10 numeral gives `i`.  So `itoa` is injective on
these `i`, and the kids `"new-" + itoa(0) .. "new-" + itoa(1999)` are pairwise
distinct. -/
theorem itoa_decimal :
    (∀ i : Int, 0 ≤ i → i < 2 ^ 63 →
      ∃ str, itoa i = some str ∧ str.data ≠ [] ∧
        (∀ c ∈ str.data, c.isDigit = true) ∧
        (i ≠ 0 → str.data.head? ≠ some '0') ∧ (i = 0 → str = "0") ∧
        (decimalValue str.data : Int) = i) ∧
      (∀ i j : Int, 0 ≤ i → i < 2 ^ 63 → 0 ≤ j → j < 2 ^ 63 → itoa i = itoa j → i = j) ∧
      ((List.range 2000).map newKid).Nodup := by
  refine ⟨itoa_digits, itoa_injective, ?_⟩
  apply List.Nodup.map_on _ (List.nodup_range 2000)
  intro i hi j hj h
  have hi2 : i < 2 ^ 63 := lt_trans (List.mem_range.mp hi) (by norm_num)
  have hj2 : j < 2 ^ 63 := lt_trans (List.mem_range.mp hj) (by norm_num)
  exact newKid_injective i j hi2 hj2 h

/-- C15 at `i = 1999`, the last index of the loop in `main`, and at the pair
`1999`, `999`. -/
theorem itoa_decimal_witness :
    ((0 : Int) ≤ 1999 ∧ (1999 : Int) < 2 ^ 63) ∧
    (∃ str, itoa 1999 = some str ∧ str.data ≠ [] ∧
        (∀ c ∈ str.data, c.isDigit = true) ∧
        ((1999 : Int) ≠ 0 → str.data.head? ≠ some '0') ∧ ((1999 : Int) = 0 → str = "0") ∧
        (decimalValue str.data : Int) = 1999) ∧
    itoa 1999 = some "1999" ∧
    (itoa 1999 = itoa 999 → (1999 : Int) = 999) :=
  ⟨⟨by decide, by decide⟩, itoa_decimal.1 1999 (by decide) (by decide), by decide,
    itoa_decimal.2.1 1999 999 (by decide) (by decide) (by decide) (by decide)⟩

/-- C16. `makeJWKS` creates a JWKS JSON string with the given key IDs: for
every list of kids it returns the opening text of the object with its `keys`
array, then one entry per kid (an object with `kty` oct, `k` QUFBQQ and the
kid) in input order, the entries joined by single commas, then the closing
text; for the empty list the array is empty; and the copies of `makeJWKS` in
`main.go` and in `vulnerable_version.go` return the same string on every
input. -/
theorem makeJWKS_document :
    (∀ kids, makeJWKS kids = jwksDocument kids) ∧
      (∀ kids, makeJWKS kids =
        "\x7b\"keys\":[" ++ String.intercalate ","
          (kids.map fun kid =>
            "\x7b\"kty\":\"oct\",\"k\":\"QUFBQQ\",\"kid\":\"" ++ kid ++ "\"\x7d") ++ "]\x7d") ∧
      makeJWKS [] = "\x7b\"keys\":[]\x7d" ∧
      makeJWKS ["old"] =
        "\x7b\"keys\":[\x7b\"kty\":\"oct\",\"k\":\"QUFBQQ\",\"kid\":\"old\"\x7d]\x7d" ∧
      makeJWKS ["a", "b"] =
        "\x7b\"keys\":[\x7b\"kty\":\"oct\",\"k\":\"QUFBQQ\",\"kid\":\"a\"\x7d," ++
          "\x7b\"kty\":\"oct\",\"k\":\"QUFBQQ\",\"kid\":\"b\"\x7d]\x7d" ∧
      (∀ kids, MainGo.makeJWKS kids = makeJWKS kids) := by
  have hdoc : ∀ kids, makeJWKS kids = jwksDocument kids := by
    intro kids
    rw [makeJWKS, makeJWKSLoop_zero, jwksDocument]
  refine ⟨hdoc, ?_, by decide, by decide, by decide, ?_⟩
  · intro kids
    rw [hdoc]
    rfl
  · intro kids
    rw [MainGo.makeJWKS, MainGo_makeJWKSLoop_eq, makeJWKS]

end JwksetPoc
